import Mathlib

unseal Rat.mul Rat.add Rat.sub Rat.inv

/-!
# Verification of the Portfolio View Model of `trackerfi-front`

Shallow embedding of the token portfolio sort/group/normalize logic of
`src/vyxoz-app/components/PortfolioTokenDisplay.tsx` (with the
`TrackedWalletToken` data shape from `hooks/useWalletTracking.ts`).

JavaScript numbers that can be `NaN` are modelled as `Option ℚ` with
`none` playing the role of `NaN`; all other numbers arriving from JSON
are modelled as rationals.  JS strings are modelled as Lean `String`s
and the case conversions `toUpperCase`/`toLowerCase` as per-character
ASCII maps (`toUpperStr`/`toLowerStr`; the data handled by this
component is ASCII chain/ticker identifiers).  `Array.prototype.sort`
is modelled as a stable comparison sort (ES2019 requires the sort to be
stable; the `SortCompare` operation coerces a `NaN` comparator result
to `+0`).  The plain `{}` grouping object is modelled as an association
list in property-creation order together with its prototype chain: a
chain name that is an inherited `Object.prototype` property makes the
grouping loop throw `TypeError`, modelled as `none`.
-/

namespace Trackerfi

/-- The token-holding record consumed by `PortfolioTokenDisplay`
(interface `TrackedWalletToken` in `hooks/useWalletTracking.ts`).
Fields the view logic reads defensively (`?.`, `||`) are modelled as
optional; numeric upstream fields (`quantity`, `price`, `value`) are
modelled as the string their `toString()` produces, since the component
only ever consumes them through `x?.toString()`.  `price_change_24h` is
consumed directly as a number.  Presentation-only fields
(`position_type`, `decimals`, `icon_url`, `updated_at`, `wallet_chain`)
are omitted; they are never read by the sort/group/normalize logic. -/
structure TrackedWalletToken where
  id : Option String
  name : Option String
  symbol : Option String
  address : Option String
  chain : Option String
  quantity : Option String
  price : Option String
  value : Option String
  price_change_24h : Option ℚ
  wallet_address : Option String
  deriving DecidableEq, Repr

/-- ASCII model of `String.prototype.toUpperCase` (the chain identifiers
this component normalizes are ASCII). -/
def toUpperStr (s : String) : String :=
  String.mk (s.data.map Char.toUpper)

/-- ASCII model of `String.prototype.toLowerCase`. -/
def toLowerStr (s : String) : String :=
  String.mk (s.data.map Char.toLower)

/-- Lexicographic comparison of char sequences (strict less-than). -/
def charListLt : List Char → List Char → Bool
  | [], [] => false
  | [], _ :: _ => true
  | _ :: _, [] => false
  | a :: as, b :: bs => if a < b then true else if b < a then false else charListLt as bs

/-- JS `a || b` on an optional string: `undefined` and `""` are falsy. -/
def jsOrString (a : Option String) (b : String) : String :=
  match a with
  | none => b
  | some s => if s = "" then b else s

/-- JS subtraction with `NaN` (`none`) propagation. -/
def jsSub (a b : Option ℚ) : Option ℚ :=
  match a, b with
  | some x, some y => some (x - y)
  | _, _ => none

/-- JS addition with `NaN` (`none`) propagation. -/
def jsAdd (a b : Option ℚ) : Option ℚ :=
  match a, b with
  | some x, some y => some (x + y)
  | _, _ => none

/-- Read a maximal run of decimal digits: accumulated value, number of
digits read, rest of the input. -/
def readDigits : List Char → ℕ → ℕ → ℕ × ℕ × List Char
  | [], acc, n => (acc, n, [])
  | c :: cs, acc, n =>
    if c.isDigit then readDigits cs (10 * acc + (c.toNat - 48)) (n + 1)
    else (acc, n, c :: cs)

/-- Model of the JS builtin `parseFloat`: skip leading whitespace, read an
optional sign, a decimal significand (digits, optional fraction) and an
optional exponent, ignoring any trailing garbage; return `none` (`NaN`)
when no digit is found.  (The `Infinity` literal is not modelled; the
inputs of this component are finite decimal strings.) -/
def parseFloat (s : String) : Option ℚ :=
  let cs := s.data.dropWhile (fun c => c = ' ' || c = '\t' || c = '\n' || c = '\r')
  let signedCs : ℚ × List Char :=
    match cs with
    | '-' :: t => (-1, t)
    | '+' :: t => (1, t)
    | _ => (1, cs)
  let sign := signedCs.1
  let afterSign := signedCs.2
  let intPart := readDigits afterSign 0 0
  let fracPart : ℕ × ℕ × List Char :=
    match intPart.2.2 with
    | '.' :: t => readDigits t 0 0
    | rest => (0, 0, rest)
  if intPart.2.1 = 0 && fracPart.2.1 = 0 then none
  else
    let mant : ℚ := sign * ((intPart.1 : ℚ) + mkRat (fracPart.1 : ℤ) (10 ^ fracPart.2.1))
    let e : ℤ :=
      match fracPart.2.2 with
      | 'e' :: t =>
        let signedT : ℤ × List Char :=
          match t with
          | '-' :: u => (-1, u)
          | '+' :: u => (1, u)
          | _ => (1, t)
        let ev := readDigits signedT.2 0 0
        if ev.2.1 = 0 then 0 else signedT.1 * (ev.1 : ℤ)
      | 'E' :: t =>
        let signedT : ℤ × List Char :=
          match t with
          | '-' :: u => (-1, u)
          | '+' :: u => (1, u)
          | _ => (1, t)
        let ev := readDigits signedT.2 0 0
        if ev.2.1 = 0 then 0 else signedT.1 * (ev.1 : ℤ)
      | _ => 0
    if 0 ≤ e then some (mant * (10 : ℚ) ^ e.toNat)
    else some (mant * mkRat 1 (10 ^ (-e).toNat))

/-- Sign model of `String.prototype.localeCompare`: `-1`, `0` or `1` by
lexicographic code-point comparison (`localeCompare` is locale-sensitive,
but on the lowercase ASCII keys produced by this component its sign
agrees with code-point order in the default locale). -/
def localeCompare (a b : String) : ℚ :=
  if charListLt a.data b.data then -1 else if charListLt b.data a.data then 1 else 0

/-- `getChainColor` (PortfolioTokenDisplay.tsx, lines 35-51): switch on
`chain?.toUpperCase()` over the color alias table, default `#666`. -/
def getChainColor (chain : Option String) : String :=
  match chain with
  | none => "#666"
  | some s =>
    let chainUpper := toUpperStr s
    if chainUpper = "ETHEREUM" || chainUpper = "ETH" then "#627EEA"
    else if chainUpper = "POLYGON" || chainUpper = "MATIC" then "#8247E5"
    else if chainUpper = "BSC" || chainUpper = "BINANCE" then "#F3BA2F"
    else if chainUpper = "ARBITRUM" || chainUpper = "ARB" then "#28A0F0"
    else if chainUpper = "OPTIMISM" || chainUpper = "OP" then "#FF0420"
    else if chainUpper = "AVALANCHE" || chainUpper = "AVAX" then "#E84142"
    else if chainUpper = "SOLANA" || chainUpper = "SOL" then "#9945FF"
    else if chainUpper = "SUI" then "#6FBCF0"
    else if chainUpper = "BASE" then "#0052FF"
    else if chainUpper = "FANTOM" || chainUpper = "FTM" then "#1969FF"
    else if chainUpper = "EVM" then "#8B5CF6"
    else "#666"

/-- `getChainDisplayName` (PortfolioTokenDisplay.tsx, lines 53-66):
switch on `chain?.toUpperCase()`, with default `chain || 'Unknown'`.
An absent chain (`undefined`) matches no case and is falsy, hence
`"Unknown"`; so is the empty string. -/
def getChainDisplayName (chain : Option String) : String :=
  match chain with
  | none => "Unknown"
  | some s =>
    let chainUpper := toUpperStr s
    if chainUpper = "EVM" then "EVM"
    else if chainUpper = "ETH" then "Ethereum"
    else if chainUpper = "MATIC" then "Polygon"
    else if chainUpper = "ARB" then "Arbitrum"
    else if chainUpper = "OP" then "Optimism"
    else if chainUpper = "AVAX" then "Avalanche"
    else if chainUpper = "SOL" then "Solana"
    else if chainUpper = "FTM" then "Fantom"
    else if s = "" then "Unknown" else s

/-- Numeric sort key of the `value` criterion:
`parseFloat(a.value?.toString() || '0')` (line 74). -/
def valueKey (t : TrackedWalletToken) : Option ℚ :=
  parseFloat (jsOrString t.value "0")

/-- Numeric sort key of the `balance` criterion:
`parseFloat(a.quantity?.toString() || '0')` (line 79). -/
def balanceKey (t : TrackedWalletToken) : Option ℚ :=
  parseFloat (jsOrString t.quantity "0")

/-- Numeric sort key of the `performance` criterion:
`a.price_change_24h || 0` (line 83). -/
def perfKey (t : TrackedWalletToken) : ℚ :=
  t.price_change_24h.getD 0

/-- String sort key of the `alphabetical` criterion:
`(a.name || a.symbol || '').toLowerCase()` (line 87). -/
def nameKey (t : TrackedWalletToken) : String :=
  toLowerStr (jsOrString t.name (jsOrString t.symbol ""))

/-- String sort key of the `chain` criterion:
`getChainDisplayName(a.chain).toLowerCase()` (line 91). -/
def chainSortKey (t : TrackedWalletToken) : String :=
  toLowerStr (getChainDisplayName t.chain)

/-- The comparator passed to `[...tokens].sort` (lines 70-97).  The
result is a JS number (`none` = `NaN`, possible when a `parseFloat`
produced `NaN`).  The switch is on the runtime string `sortBy`; any
string outside the five options falls to `default: return 0`. -/
def tokenCompare (sortBy : String) (a b : TrackedWalletToken) : Option ℚ :=
  if sortBy = "value" then jsSub (valueKey b) (valueKey a)
  else if sortBy = "balance" then jsSub (balanceKey b) (balanceKey a)
  else if sortBy = "performance" then some (perfKey b - perfKey a)
  else if sortBy = "alphabetical" then some (localeCompare (nameKey a) (nameKey b))
  else if sortBy = "chain" then some (localeCompare (chainSortKey a) (chainSortKey b))
  else some 0

/-- ES2023 `SortCompare` step: a comparator result sends `a` after `b`
exactly when it is a number greater than zero; `NaN` is coerced to `+0`. -/
def cmpGT (c : Option ℚ) : Bool :=
  match c with
  | some v => decide (0 < v)
  | none => false

/-- Insert `x` into `l` in front of the first element `y` with
`¬ cmp x y > 0`; this is the insertion step of a stable comparison
sort (a later-arriving element never crosses an element its comparator
ties with). -/
def insertSorted (cmp : α → α → Option ℚ) (x : α) : List α → List α
  | [] => [x]
  | y :: ys => if cmpGT (cmp x y) then y :: insertSorted cmp x ys else x :: y :: ys

/-- Stable comparison sort modelling `Array.prototype.sort(comparator)`
(stable per ES2019; for comparators that are not consistent the ES
result is implementation-defined, and this model fixes one stable
algorithm). -/
def stableSort (cmp : α → α → Option ℚ) : List α → List α
  | [] => []
  | x :: xs => insertSorted cmp x (stableSort cmp xs)

/-- `sortedTokens` (lines 69-98): `[...tokens].sort(comparator)` for the
current `sortBy` criterion. -/
def sortedTokens (sortBy : String) (tokens : List TrackedWalletToken) :
    List TrackedWalletToken :=
  stableSort (tokenCompare sortBy) tokens

/-- The `Object.prototype` property names inherited by the plain `{}`
object built at line 101.  Every one of them has a truthy inherited
value (a function, or `Object.prototype` itself for `__proto__`), so
`!grouped[chain]` is false for these keys even before any own property
exists. -/
def objectProtoKeys : List String :=
  ["constructor", "hasOwnProperty", "isPrototypeOf", "propertyIsEnumerable",
   "toLocaleString", "toString", "valueOf", "__defineGetter__",
   "__defineSetter__", "__lookupGetter__", "__lookupSetter__", "__proto__"]

/-- The non-colliding case of one `forEach` step of
`getTokensByBlockchain` (lines 102-108): when `chain` is not an
inherited `Object.prototype` property name, `grouped[chain]` is falsy
exactly when no own property exists yet, so
`if (!grouped[chain]) grouped[chain] = []; grouped[chain].push(token)`
creates the group on demand and appends.  The JS object is modelled as
an association list in property-creation order.  The colliding case
throws and is modelled by `groupPushJS`. -/
def groupPush (grouped : List (String × List TrackedWalletToken))
    (chain : String) (token : TrackedWalletToken) :
    List (String × List TrackedWalletToken) :=
  match grouped with
  | [] => [(chain, [token])]
  | (k, ts) :: rest =>
    if k = chain then (k, ts ++ [token]) :: rest
    else (k, ts) :: groupPush rest chain token

/-- One full `forEach` step of `getTokensByBlockchain` (lines 102-108),
prototype chain included: for a chain equal to an `Object.prototype`
property name the inherited value is truthy, the initialization
`grouped[chain] = []` is skipped, and `grouped[chain].push(token)`
throws `TypeError` (push is not a function of the inherited value) —
modelled as `none`; otherwise the step is `groupPush`. -/
def groupPushJS (grouped : List (String × List TrackedWalletToken))
    (chain : String) (token : TrackedWalletToken) :
    Option (List (String × List TrackedWalletToken)) :=
  if chain ∈ objectProtoKeys then none else some (groupPush grouped chain token)

/-- The success path of the `forEach` loop of `getTokensByBlockchain`
over an arbitrary token sequence: the association-list grouping that the
loop produces when no normalized chain name collides with an
`Object.prototype` property (see `groupForEachJS` for the full loop). -/
def groupForEach (tokens : List TrackedWalletToken) :
    List (String × List TrackedWalletToken) :=
  tokens.foldl (fun g t => groupPush g (getChainDisplayName t.chain) t) []

/-- The full `forEach` loop of `getTokensByBlockchain` (lines 102-108):
the thrown `TypeError` of a prototype-colliding chain name aborts the
whole loop (no partial grouping is observable), modelled as `none`. -/
def groupForEachJS (tokens : List TrackedWalletToken) :
    Option (List (String × List TrackedWalletToken)) :=
  tokens.foldl
    (fun acc t => acc.bind (fun g => groupPushJS g (getChainDisplayName t.chain) t))
    (some [])

/-- `getTokensByBlockchain` (lines 100-110): groups `sortedTokens` by
normalized chain display name; `none` models the call throwing
`TypeError` on a holding whose normalized chain name is an
`Object.prototype` property name. -/
def getTokensByBlockchain (sortBy : String) (tokens : List TrackedWalletToken) :
    Option (List (String × List TrackedWalletToken)) :=
  groupForEachJS (sortedTokens sortBy tokens)

/-- Numeric value of a decimal-digit string. -/
def digitStringVal (s : String) : ℕ :=
  s.data.foldl (fun n c => 10 * n + (c.toNat - 48)) 0

/-- Whether a JS property key is an array index (ECMAScript: the
canonical decimal form of an integer `0 ≤ n < 2^32 - 1`); such keys are
enumerated before all other string keys, in ascending numeric order. -/
def isArrayIndexKey (s : String) : Bool :=
  !s.data.isEmpty && s.data.all Char.isDigit
    && (s = "0" || s.data.head? ≠ some '0')
    && digitStringVal s < 4294967295

/-- Model of `Object.entries` on an association list in property-creation
order: array-index keys first, ascending numerically, then the remaining
string keys in creation order (ECMAScript `OrdinaryOwnPropertyKeys`). -/
def objectEntries (g : List (String × List TrackedWalletToken)) :
    List (String × List TrackedWalletToken) :=
  stableSort (fun p q => some ((digitStringVal p.1 : ℚ) - (digitStringVal q.1 : ℚ)))
      (g.filter (fun p => isArrayIndexKey p.1))
    ++ g.filter (fun p => !isArrayIndexKey p.1)

/-- The group list handed to the section `FlatList` when sorting by
chain: `Object.entries(getTokensByBlockchain())` (line 303); `none`
when the grouping call throws. -/
def displayedGroups (sortBy : String) (tokens : List TrackedWalletToken) :
    Option (List (String × List TrackedWalletToken)) :=
  (getTokensByBlockchain sortBy tokens).map objectEntries

/-- `totalValue` of `renderBlockchainSection` (lines 234-236):
`blockchainTokens.reduce((sum, token) => sum +
parseFloat(token.value?.toString() || '0'), 0)` — a JS sum, so a `NaN`
summand makes the whole total `NaN`. -/
def totalValue (blockchainTokens : List TrackedWalletToken) : Option ℚ :=
  blockchainTokens.foldl (fun sum token => jsAdd sum (valueKey token)) (some 0)

/-- The per-group token count displayed at line 246:
`blockchainTokens.length`. -/
def renderedTokenCount (blockchainTokens : List TrackedWalletToken) : ℕ :=
  blockchainTokens.length

/-- The sort key a holding contributes under a criterion: the numeric
key (a JS number, possibly `NaN`) of the three numeric criteria, the
lowercased string key of the two string criteria, and the constant `0`
of the default comparator branch. -/
inductive SortKey where
  | num : Option ℚ → SortKey
  | str : String → SortKey
  deriving DecidableEq, Repr

/-- The key the comparator of `sortedTokens` derives from a holding. -/
def sortKey (sortBy : String) (t : TrackedWalletToken) : SortKey :=
  if sortBy = "value" then .num (valueKey t)
  else if sortBy = "balance" then .num (balanceKey t)
  else if sortBy = "performance" then .num (some (perfKey t))
  else if sortBy = "alphabetical" then .str (nameKey t)
  else if sortBy = "chain" then .str (chainSortKey t)
  else .num (some 0)

/-- Append a key to an accumulator unless already present. -/
def occInsert (acc : List String) (k : String) : List String :=
  if k ∈ acc then acc else acc ++ [k]

/-- The normalized chain names of a token sequence in order of first
occurrence. -/
def firstOccurrenceKeys (tokens : List TrackedWalletToken) : List String :=
  tokens.foldl (fun acc t => occInsert acc (getChainDisplayName t.chain)) []

/-- No adjacent pair of the list is swapped by the comparator: the
comparator never sends an element after its immediate successor. -/
def noAdjSwap (cmp : α → α → Option ℚ) : List α → Prop
  | [] => True
  | [_] => True
  | x :: y :: rest => cmpGT (cmp x y) = false ∧ noAdjSwap cmp (y :: rest)

/-- Modelled from the spec: the shared "parse-or-zero" conversion of §9
("a single shared parse-or-zero conversion function"), under which an
absent or unparseable numeric field contributes exactly zero. -/
def specParseOrZero (v : Option String) : ℚ :=
  (parseFloat (jsOrString v "0")).getD 0

/-- Modelled from the spec: the by-value descending comparator the spec
describes, whose numeric key is exactly `specParseOrZero` ("absent
numeric fields are treated as zero for comparison purposes"). -/
def specValueCompare (a b : TrackedWalletToken) : Option ℚ :=
  some (specParseOrZero b.value - specParseOrZero a.value)

/-- Modelled from the spec: by-value sorting with every unparseable or
absent value treated as the key zero. -/
def specValueSorted (tokens : List TrackedWalletToken) : List TrackedWalletToken :=
  stableSort specValueCompare tokens

/-- Modelled from the spec: the group subtotal the spec demands,
`sum(parseOrZero(h.value) for h in group.holdings)`. -/
def specSubtotal (holdings : List TrackedWalletToken) : ℚ :=
  (holdings.map (fun t => specParseOrZero t.value)).sum

/-- A minimal holding with a given chain and value; all other fields
absent.  Used as concrete test input. -/
def mkToken (chain v : Option String) : TrackedWalletToken :=
  ⟨none, none, none, none, chain, none, none, v, none, none⟩

/-! ## Generic facts about the stable sort model -/

theorem insertSorted_perm (cmp : α → α → Option ℚ) (x : α) (l : List α) :
    (insertSorted cmp x l).Perm (x :: l) := by
  induction l with
  | nil => simp [insertSorted]
  | cons y ys ih =>
    simp only [insertSorted]
    split
    · exact (ih.cons y).trans (List.Perm.swap x y ys)
    · exact List.Perm.refl _

theorem stableSort_perm (cmp : α → α → Option ℚ) (l : List α) :
    (stableSort cmp l).Perm l := by
  induction l with
  | nil => simp [stableSort]
  | cons x xs ih =>
    exact (insertSorted_perm cmp x (stableSort cmp xs)).trans (ih.cons x)

theorem filter_insertSorted_pos (cmp : α → α → Option ℚ) (p : α → Bool)
    (x : α) (l : List α) (hx : p x = true)
    (h : ∀ y ∈ l, p y = true → cmpGT (cmp x y) = false) :
    (insertSorted cmp x l).filter p = x :: l.filter p := by
  induction l with
  | nil => simp [insertSorted, hx]
  | cons y ys ih =>
    simp only [insertSorted]
    by_cases hgt : cmpGT (cmp x y) = true
    · have hy : p y = false := by
        rcases Bool.eq_false_or_eq_true (p y) with ht | hf
        · exact absurd hgt (by simp [h y (List.mem_cons_self y ys) ht])
        · exact hf
      rw [if_pos hgt]
      rw [List.filter_cons_of_neg (by simp [hy])]
      rw [ih (fun z hz hp => h z (List.mem_cons_of_mem y hz) hp)]
      rw [List.filter_cons_of_neg (by simp [hy])]
    · rw [if_neg hgt]
      rw [List.filter_cons_of_pos (by simp [hx])]

theorem filter_insertSorted_neg (cmp : α → α → Option ℚ) (p : α → Bool)
    (x : α) (l : List α) (hx : p x = false) :
    (insertSorted cmp x l).filter p = l.filter p := by
  induction l with
  | nil => simp [insertSorted, hx]
  | cons y ys ih =>
    simp only [insertSorted]
    by_cases hgt : cmpGT (cmp x y) = true
    · rw [if_pos hgt]
      by_cases hy : p y = true
      · rw [List.filter_cons_of_pos (by simp [hy]), ih,
          List.filter_cons_of_pos (by simp [hy])]
      · have hy' : p y = false := by simpa using hy
        rw [List.filter_cons_of_neg (by simp [hy']), ih,
          List.filter_cons_of_neg (by simp [hy'])]
    · rw [if_neg hgt]
      rw [List.filter_cons_of_neg (by simp [hx])]

theorem filter_stableSort (cmp : α → α → Option ℚ) (p : α → Bool)
    (l : List α)
    (h : ∀ a b, p a = true → p b = true → cmpGT (cmp a b) = false) :
    (stableSort cmp l).filter p = l.filter p := by
  induction l with
  | nil => simp [stableSort]
  | cons x xs ih =>
    simp only [stableSort]
    by_cases hx : p x = true
    · rw [filter_insertSorted_pos cmp p x (stableSort cmp xs) hx
        (fun y _ hy => h x y hx hy)]
      rw [ih, List.filter_cons_of_pos (by simp [hx])]
    · have hx' : p x = false := by simpa using hx
      rw [filter_insertSorted_neg cmp p x (stableSort cmp xs) hx', ih,
        List.filter_cons_of_neg (by simp [hx'])]

theorem stableSort_eq_self_of_noAdjSwap (cmp : α → α → Option ℚ)
    (l : List α) (h : noAdjSwap cmp l) : stableSort cmp l = l := by
  induction l with
  | nil => rfl
  | cons x xs ih =>
    match xs, h with
    | [], _ => simp [stableSort, insertSorted]
    | y :: ys, ⟨hxy, htail⟩ =>
      simp only [stableSort] at ih ⊢
      rw [ih htail]
      simp [insertSorted, hxy]

theorem noAdjSwap_insertSorted (cmp : α → α → Option ℚ)
    (hasym : ∀ a b, cmpGT (cmp a b) = true → cmpGT (cmp b a) = false)
    (x : α) (l : List α) (h : noAdjSwap cmp l) :
    noAdjSwap cmp (insertSorted cmp x l) := by
  induction l with
  | nil => simp [insertSorted, noAdjSwap]
  | cons y ys ih =>
    simp only [insertSorted]
    by_cases hgt : cmpGT (cmp x y) = true
    · rw [if_pos hgt]
      have htail : noAdjSwap cmp ys := by
        match ys, h with
        | [], _ => trivial
        | z :: zs, ⟨_, ht⟩ => exact ht
      have hrec := ih htail
      match ys, htail, hrec with
      | [], _, _ =>
        exact ⟨hasym x y hgt, trivial⟩
      | z :: zs, ht, hrec =>
        simp only [insertSorted] at hrec ⊢
        by_cases hgz : cmpGT (cmp x z) = true
        · rw [if_pos hgz] at hrec ⊢
          exact ⟨(h : noAdjSwap cmp (y :: z :: zs)).1, hrec⟩
        · rw [if_neg hgz] at hrec ⊢
          exact ⟨hasym x y hgt, hrec⟩
    · rw [if_neg hgt]
      have hxy : cmpGT (cmp x y) = false := by simpa using hgt
      exact ⟨hxy, h⟩

theorem noAdjSwap_stableSort (cmp : α → α → Option ℚ)
    (hasym : ∀ a b, cmpGT (cmp a b) = true → cmpGT (cmp b a) = false)
    (l : List α) : noAdjSwap cmp (stableSort cmp l) := by
  induction l with
  | nil => trivial
  | cons x xs ih => exact noAdjSwap_insertSorted cmp hasym x _ ih

theorem stableSort_idem (cmp : α → α → Option ℚ)
    (hasym : ∀ a b, cmpGT (cmp a b) = true → cmpGT (cmp b a) = false)
    (l : List α) :
    stableSort cmp (stableSort cmp l) = stableSort cmp l :=
  stableSort_eq_self_of_noAdjSwap cmp _ (noAdjSwap_stableSort cmp hasym l)

theorem stableSort_eq_self_of_never_gt (cmp : α → α → Option ℚ)
    (l : List α) (h : ∀ a b, cmpGT (cmp a b) = false) :
    stableSort cmp l = l := by
  apply stableSort_eq_self_of_noAdjSwap
  induction l with
  | nil => trivial
  | cons x xs ih =>
    match xs, ih with
    | [], _ => trivial
    | y :: ys, ih => exact ⟨h x y, ih⟩

/-! ## Facts about the comparator of `sortedTokens` -/

theorem charListLt_self (l : List Char) : charListLt l l = false := by
  induction l with
  | nil => rfl
  | cons a as ih => simp [charListLt, lt_irrefl, ih]

theorem charListLt_asymm (l m : List Char) (h : charListLt l m = true) :
    charListLt m l = false := by
  induction l generalizing m with
  | nil =>
    cases m with
    | nil => simp [charListLt] at h
    | cons b bs => rfl
  | cons a as ih =>
    cases m with
    | nil => simp [charListLt] at h
    | cons b bs =>
      by_cases hab : a < b
      · have hba : ¬ b < a := lt_asymm hab
        simp [charListLt, hab, hba, lt_irrefl]
      · by_cases hba : b < a
        · simp [charListLt, hab, hba] at h
        · have hrec := ih bs
          simp only [charListLt, if_neg hab, if_neg hba] at h
          simp only [charListLt, if_neg hba, if_neg hab]
          exact hrec h

theorem localeCompare_self (s : String) : localeCompare s s = 0 := by
  simp [localeCompare, charListLt_self]

theorem cmpGT_localeCompare_asymm (a b : String)
    (h : cmpGT (some (localeCompare a b)) = true) :
    cmpGT (some (localeCompare b a)) = false := by
  by_cases hab : charListLt a.data b.data = true
  · exfalso
    simp [localeCompare, hab, cmpGT] at h
    linarith
  · by_cases hba : charListLt b.data a.data = true
    · have := charListLt_asymm _ _ hba
      simp [localeCompare, hba, this, cmpGT]
    · simp only [localeCompare, if_neg hab, if_neg hba, cmpGT] at h
      simp at h

theorem cmpGT_jsSub_self (u : Option ℚ) : cmpGT (jsSub u u) = false := by
  cases u with
  | none => rfl
  | some q => simp [jsSub, cmpGT]

theorem cmpGT_jsSub_asymm (u v : Option ℚ) (h : cmpGT (jsSub u v) = true) :
    cmpGT (jsSub v u) = false := by
  cases u with
  | none => simp [jsSub, cmpGT] at h
  | some x =>
    cases v with
    | none => simp [jsSub, cmpGT] at h
    | some y =>
      simp only [jsSub, cmpGT, decide_eq_true_eq] at h
      simp only [jsSub, cmpGT, decide_eq_false_iff_not]
      intro hcon
      linarith

theorem cmpGT_sub_asymm (x y : ℚ) (h : cmpGT (some (x - y)) = true) :
    cmpGT (some (y - x)) = false := by
  simp only [cmpGT, decide_eq_true_eq] at h
  simp only [cmpGT, decide_eq_false_iff_not]
  intro hcon
  linarith

theorem cmpGT_tokenCompare_of_sortKey_eq (sortBy : String)
    (a b : TrackedWalletToken) (h : sortKey sortBy a = sortKey sortBy b) :
    cmpGT (tokenCompare sortBy a b) = false := by
  by_cases h1 : sortBy = "value"
  · simp only [sortKey, tokenCompare, if_pos h1] at h ⊢
    injection h with h
    rw [h]
    exact cmpGT_jsSub_self _
  by_cases h2 : sortBy = "balance"
  · simp only [sortKey, tokenCompare, if_neg h1, if_pos h2] at h ⊢
    injection h with h
    rw [h]
    exact cmpGT_jsSub_self _
  by_cases h3 : sortBy = "performance"
  · simp only [sortKey, tokenCompare, if_neg h1, if_neg h2, if_pos h3] at h ⊢
    injection h with h
    injection h with h
    rw [h]
    simp [cmpGT]
  by_cases h4 : sortBy = "alphabetical"
  · simp only [sortKey, tokenCompare, if_neg h1, if_neg h2, if_neg h3, if_pos h4] at h ⊢
    injection h with h
    rw [h, localeCompare_self]
    simp [cmpGT]
  by_cases h5 : sortBy = "chain"
  · simp only [sortKey, tokenCompare, if_neg h1, if_neg h2, if_neg h3, if_neg h4,
      if_pos h5] at h ⊢
    injection h with h
    rw [h, localeCompare_self]
    simp [cmpGT]
  · simp only [tokenCompare, if_neg h1, if_neg h2, if_neg h3, if_neg h4, if_neg h5]
    simp [cmpGT]

theorem cmpGT_tokenCompare_asymm (sortBy : String) (a b : TrackedWalletToken)
    (h : cmpGT (tokenCompare sortBy a b) = true) :
    cmpGT (tokenCompare sortBy b a) = false := by
  by_cases h1 : sortBy = "value"
  · simp only [tokenCompare, if_pos h1] at h ⊢
    exact cmpGT_jsSub_asymm _ _ h
  by_cases h2 : sortBy = "balance"
  · simp only [tokenCompare, if_neg h1, if_pos h2] at h ⊢
    exact cmpGT_jsSub_asymm _ _ h
  by_cases h3 : sortBy = "performance"
  · simp only [tokenCompare, if_neg h1, if_neg h2, if_pos h3] at h ⊢
    exact cmpGT_sub_asymm _ _ h
  by_cases h4 : sortBy = "alphabetical"
  · simp only [tokenCompare, if_neg h1, if_neg h2, if_neg h3, if_pos h4] at h ⊢
    exact cmpGT_localeCompare_asymm _ _ h
  by_cases h5 : sortBy = "chain"
  · simp only [tokenCompare, if_neg h1, if_neg h2, if_neg h3, if_neg h4,
      if_pos h5] at h ⊢
    exact cmpGT_localeCompare_asymm _ _ h
  · simp only [tokenCompare, if_neg h1, if_neg h2, if_neg h3, if_neg h4,
      if_neg h5, cmpGT] at h
    simp at h

/-! ## Facts about the grouping of `getTokensByBlockchain` -/

theorem groupPush_join_perm (g : List (String × List TrackedWalletToken))
    (k : String) (t : TrackedWalletToken) :
    (((groupPush g k t).map Prod.snd).flatten).Perm
      ((g.map Prod.snd).flatten ++ [t]) := by
  induction g with
  | nil => simp [groupPush]
  | cons p rest ih =>
    obtain ⟨k', ts⟩ := p
    simp only [groupPush]
    by_cases hk : k' = k
    · rw [if_pos hk]
      simp only [List.map_cons, List.flatten_cons]
      rw [List.append_assoc]
      exact (List.Perm.append_left ts
        (List.perm_append_comm.trans (List.Perm.refl _))).trans
        (by rw [← List.append_assoc])
    · rw [if_neg hk]
      simp only [List.map_cons, List.flatten_cons]
      rw [List.append_assoc]
      exact List.Perm.append_left ts ih

theorem groupPush_map_fst (g : List (String × List TrackedWalletToken))
    (k : String) (t : TrackedWalletToken) :
    (groupPush g k t).map Prod.fst = occInsert (g.map Prod.fst) k := by
  induction g with
  | nil => simp [groupPush, occInsert]
  | cons p rest ih =>
    obtain ⟨k', ts⟩ := p
    simp only [groupPush]
    by_cases hk : k' = k
    · rw [if_pos hk]
      simp [occInsert, hk]
    · rw [if_neg hk]
      simp only [List.map_cons, ih, occInsert]
      have hne : ¬ k = k' := fun h => hk h.symm
      by_cases hmem : k ∈ rest.map Prod.fst
      · simp [hmem, hne]
      · simp [hmem, hne]

theorem occInsert_nodup (acc : List String) (k : String) (h : acc.Nodup) :
    (occInsert acc k).Nodup := by
  unfold occInsert
  split
  · exact h
  · next hk =>
    refine List.Nodup.append h (List.nodup_singleton k) ?_
    simp only [List.disjoint_singleton]
    exact hk

theorem groupForEach_join_perm_aux (l : List TrackedWalletToken)
    (g : List (String × List TrackedWalletToken)) :
    (((l.foldl (fun g t => groupPush g (getChainDisplayName t.chain) t) g).map
      Prod.snd).flatten).Perm ((g.map Prod.snd).flatten ++ l) := by
  induction l generalizing g with
  | nil => simp
  | cons t rest ih =>
    simp only [List.foldl_cons]
    refine (ih (groupPush g (getChainDisplayName t.chain) t)).trans ?_
    have hp := groupPush_join_perm g (getChainDisplayName t.chain) t
    refine (hp.append_right rest).trans ?_
    rw [List.append_assoc]
    exact List.Perm.refl _

theorem groupForEach_join_perm (l : List TrackedWalletToken) :
    (((groupForEach l).map Prod.snd).flatten).Perm l := by
  simpa using groupForEach_join_perm_aux l []

theorem groupForEach_map_fst_aux (l : List TrackedWalletToken)
    (g : List (String × List TrackedWalletToken)) :
    (l.foldl (fun g t => groupPush g (getChainDisplayName t.chain) t) g).map
      Prod.fst =
    l.foldl (fun acc t => occInsert acc (getChainDisplayName t.chain))
      (g.map Prod.fst) := by
  induction l generalizing g with
  | nil => rfl
  | cons t rest ih =>
    simp only [List.foldl_cons]
    rw [ih, groupPush_map_fst]

theorem groupForEach_map_fst (l : List TrackedWalletToken) :
    (groupForEach l).map Prod.fst = firstOccurrenceKeys l :=
  groupForEach_map_fst_aux l []

theorem foldl_occInsert_nodup (l : List TrackedWalletToken)
    (acc : List String) (h : acc.Nodup) :
    (l.foldl (fun acc t => occInsert acc (getChainDisplayName t.chain))
      acc).Nodup := by
  induction l generalizing acc with
  | nil => exact h
  | cons t rest ih =>
    simp only [List.foldl_cons]
    exact ih _ (occInsert_nodup acc _ h)

theorem firstOccurrenceKeys_nodup (l : List TrackedWalletToken) :
    (firstOccurrenceKeys l).Nodup :=
  foldl_occInsert_nodup l [] List.nodup_nil

theorem groupForEach_keys_nodup (l : List TrackedWalletToken) :
    ((groupForEach l).map Prod.fst).Nodup := by
  rw [groupForEach_map_fst]
  exact firstOccurrenceKeys_nodup l

theorem mem_occInsert (acc : List String) (k a : String) :
    a ∈ occInsert acc k ↔ a ∈ acc ∨ a = k := by
  unfold occInsert
  split
  · next h =>
    constructor
    · exact fun ha => Or.inl ha
    · rintro (ha | rfl)
      · exact ha
      · exact h
  · simp [List.mem_append]

theorem groupPush_chain_inv (g : List (String × List TrackedWalletToken))
    (t : TrackedWalletToken) (k : String) (hk : getChainDisplayName t.chain = k)
    (hinv : ∀ p ∈ g, ∀ x ∈ p.2, getChainDisplayName x.chain = p.1) :
    ∀ p ∈ groupPush g k t, ∀ x ∈ p.2, getChainDisplayName x.chain = p.1 := by
  induction g with
  | nil =>
    intro p hp x hx
    simp only [groupPush, List.mem_singleton] at hp
    subst hp
    simp only [List.mem_singleton] at hx
    subst hx
    exact hk
  | cons q rest ih =>
    obtain ⟨k', ts⟩ := q
    simp only [groupPush]
    by_cases hk' : k' = k
    · rw [if_pos hk']
      intro p hp x hx
      rcases List.mem_cons.mp hp with h1 | h2
      · subst h1
        rcases List.mem_append.mp hx with hx1 | hx2
        · exact hinv (k', ts) (List.mem_cons_self _ _) x hx1
        · simp only [List.mem_singleton] at hx2
          subst hx2
          rw [hk, hk']
      · exact hinv p (List.mem_cons_of_mem _ h2) x hx
    · rw [if_neg hk']
      intro p hp x hx
      rcases List.mem_cons.mp hp with h1 | h2
      · subst h1
        exact hinv (k', ts) (List.mem_cons_self _ _) x hx
      · exact ih (fun p hp => hinv p (List.mem_cons_of_mem _ hp)) p h2 x hx

theorem groupForEach_chain_aux (l : List TrackedWalletToken)
    (g : List (String × List TrackedWalletToken))
    (hinv : ∀ p ∈ g, ∀ x ∈ p.2, getChainDisplayName x.chain = p.1) :
    ∀ p ∈ l.foldl (fun g t => groupPush g (getChainDisplayName t.chain) t) g,
      ∀ x ∈ p.2, getChainDisplayName x.chain = p.1 := by
  induction l generalizing g with
  | nil => exact hinv
  | cons t rest ih =>
    simp only [List.foldl_cons]
    exact ih _ (groupPush_chain_inv g t _ rfl hinv)

theorem groupForEach_chain (l : List TrackedWalletToken) :
    ∀ p ∈ groupForEach l, ∀ x ∈ p.2, getChainDisplayName x.chain = p.1 :=
  groupForEach_chain_aux l [] (by intro p hp; exact absurd hp (List.not_mem_nil p))

theorem groupPush_filter_inv (g : List (String × List TrackedWalletToken))
    (pre : List TrackedWalletToken) (t : TrackedWalletToken)
    (hnd : (g.map Prod.fst).Nodup)
    (hinv : ∀ p ∈ g,
      p.2 = pre.filter (fun x => decide (getChainDisplayName x.chain = p.1)))
    (hmiss : getChainDisplayName t.chain ∉ g.map Prod.fst →
      pre.filter (fun x =>
        decide (getChainDisplayName x.chain = getChainDisplayName t.chain)) = []) :
    ∀ p ∈ groupPush g (getChainDisplayName t.chain) t,
      p.2 = (pre ++ [t]).filter
        (fun x => decide (getChainDisplayName x.chain = p.1)) := by
  induction g with
  | nil =>
    intro p hp
    simp only [groupPush, List.mem_singleton] at hp
    subst hp
    rw [List.filter_append]
    rw [hmiss (List.not_mem_nil _)]
    simp
  | cons q rest ih =>
    obtain ⟨k', ts⟩ := q
    simp only [groupPush]
    by_cases hk' : k' = getChainDisplayName t.chain
    · rw [if_pos hk']
      intro p hp
      rcases List.mem_cons.mp hp with h1 | h2
      · subst h1
        rw [List.filter_append]
        have hts := hinv (k', ts) (List.mem_cons_self _ _)
        simp only at hts
        rw [← hts]
        simp [hk']
      · have hp2 := hinv p (List.mem_cons_of_mem _ h2)
        rw [List.filter_append, ← hp2]
        have hp1ne : p.1 ≠ k' := by
          intro hcon
          have : k' ∈ rest.map Prod.fst := by
            rw [← hcon]
            exact List.mem_map_of_mem Prod.fst h2
          exact (List.nodup_cons.mp hnd).1 this
        have : getChainDisplayName t.chain ≠ p.1 := by
          rw [← hk']
          exact fun hcon => hp1ne hcon.symm
        simp [this]
    · rw [if_neg hk']
      intro p hp
      rcases List.mem_cons.mp hp with h1 | h2
      · subst h1
        have hts := hinv (k', ts) (List.mem_cons_self _ _)
        simp only at hts
        rw [List.filter_append, ← hts]
        have : getChainDisplayName t.chain ≠ k' := fun hcon => hk' hcon.symm
        simp [this]
      · refine ih (List.nodup_cons.mp hnd).2
          (fun p hp => hinv p (List.mem_cons_of_mem _ hp)) ?_ p h2
        intro hnotin
        refine hmiss ?_
        simp only [List.map_cons, List.mem_cons]
        rintro (hcon | hcon)
        · exact hk' hcon.symm
        · exact hnotin hcon

theorem groupFold_filter_aux (l : List TrackedWalletToken)
    (g : List (String × List TrackedWalletToken))
    (pre : List TrackedWalletToken)
    (hnd : (g.map Prod.fst).Nodup)
    (hinv : ∀ p ∈ g,
      p.2 = pre.filter (fun x => decide (getChainDisplayName x.chain = p.1)))
    (hmiss : ∀ k, k ∉ g.map Prod.fst →
      pre.filter (fun x => decide (getChainDisplayName x.chain = k)) = []) :
    ∀ p ∈ l.foldl (fun g t => groupPush g (getChainDisplayName t.chain) t) g,
      p.2 = (pre ++ l).filter
        (fun x => decide (getChainDisplayName x.chain = p.1)) := by
  induction l generalizing g pre with
  | nil =>
    intro p hp
    rw [List.append_nil]
    exact hinv p hp
  | cons t rest ih =>
    simp only [List.foldl_cons]
    intro p hp
    have hstep := ih (groupPush g (getChainDisplayName t.chain) t) (pre ++ [t])
      (by rw [groupPush_map_fst]
          exact occInsert_nodup _ _ hnd)
      (groupPush_filter_inv g pre t hnd hinv (hmiss _))
      (by intro k hk
          rw [groupPush_map_fst, mem_occInsert] at hk
          push_neg at hk
          rw [List.filter_append, hmiss k hk.1]
          have : getChainDisplayName t.chain ≠ k := fun hcon => hk.2 hcon.symm
          simp [this])
      p hp
    rw [hstep, List.append_assoc]
    rfl

theorem groupForEach_filter (l : List TrackedWalletToken) :
    ∀ p ∈ groupForEach l,
      p.2 = l.filter (fun x => decide (getChainDisplayName x.chain = p.1)) := by
  intro p hp
  have := groupFold_filter_aux l [] [] List.nodup_nil
    (by intro p hp; exact absurd hp (List.not_mem_nil p))
    (by intro k _; rfl) p hp
  simpa using this

theorem groupFoldJS_none (l : List TrackedWalletToken) :
    l.foldl
      (fun acc t => acc.bind (fun g => groupPushJS g (getChainDisplayName t.chain) t))
      none = none := by
  induction l with
  | nil => rfl
  | cons t rest ih =>
    simp only [List.foldl_cons, Option.none_bind]
    exact ih

theorem groupFoldJS_some_iff (l : List TrackedWalletToken)
    (g0 g : List (String × List TrackedWalletToken)) :
    l.foldl
        (fun acc t => acc.bind (fun g => groupPushJS g (getChainDisplayName t.chain) t))
        (some g0) = some g ↔
      (∀ t ∈ l, getChainDisplayName t.chain ∉ objectProtoKeys) ∧
        g = l.foldl (fun g t => groupPush g (getChainDisplayName t.chain) t) g0 := by
  induction l generalizing g0 with
  | nil => simp [eq_comm]
  | cons t rest ih =>
    simp only [List.foldl_cons, Option.some_bind]
    by_cases hp : getChainDisplayName t.chain ∈ objectProtoKeys
    · rw [show groupPushJS g0 (getChainDisplayName t.chain) t = none from by
        simp [groupPushJS, hp]]
      rw [groupFoldJS_none]
      constructor
      · intro hcon
        exact Option.noConfusion hcon
      · rintro ⟨hall, -⟩
        exact absurd hp (hall t (List.mem_cons_self t rest))
    · rw [show groupPushJS g0 (getChainDisplayName t.chain) t =
          some (groupPush g0 (getChainDisplayName t.chain) t) from by
        simp [groupPushJS, hp]]
      rw [ih]
      constructor
      · rintro ⟨hall, hg⟩
        refine ⟨?_, hg⟩
        intro x hx
        rcases List.mem_cons.mp hx with h1 | h2
        · subst h1
          exact hp
        · exact hall x h2
      · rintro ⟨hall, hg⟩
        exact ⟨fun x hx => hall x (List.mem_cons_of_mem t hx), hg⟩

theorem groupForEachJS_some_iff (l : List TrackedWalletToken)
    (g : List (String × List TrackedWalletToken)) :
    groupForEachJS l = some g ↔
      (∀ t ∈ l, getChainDisplayName t.chain ∉ objectProtoKeys) ∧
        g = groupForEach l := by
  unfold groupForEachJS groupForEach
  exact groupFoldJS_some_iff l [] g

theorem groupForEachJS_none_iff (l : List TrackedWalletToken) :
    groupForEachJS l = none ↔
      ∃ t ∈ l, getChainDisplayName t.chain ∈ objectProtoKeys := by
  constructor
  · intro h
    by_contra hno
    push_neg at hno
    have hsome := (groupForEachJS_some_iff l (groupForEach l)).mpr ⟨hno, rfl⟩
    rw [h] at hsome
    exact Option.noConfusion hsome
  · rintro ⟨t, ht, hp⟩
    cases hE : groupForEachJS l with
    | none => rfl
    | some g =>
      have hchar := (groupForEachJS_some_iff l g).mp hE
      exact absurd hp (hchar.1 t ht)

theorem objectEntries_eq_self (g : List (String × List TrackedWalletToken))
    (h : ∀ p ∈ g, isArrayIndexKey p.1 = false) : objectEntries g = g := by
  unfold objectEntries
  have h1 : g.filter (fun p => isArrayIndexKey p.1) = [] := by
    rw [List.filter_eq_nil_iff]
    intro p hp
    simp [h p hp]
  have h2 : g.filter (fun p => !isArrayIndexKey p.1) = g := by
    rw [List.filter_eq_self]
    intro p hp
    simp [h p hp]
  rw [h1, h2]
  simp [stableSort]

theorem totalValue_foldl (ts : List TrackedWalletToken) (q : ℚ)
    (h : ∀ t ∈ ts, (valueKey t).isSome) :
    ts.foldl (fun sum token => jsAdd sum (valueKey token)) (some q) =
      some (q + (ts.map (fun t => specParseOrZero t.value)).sum) := by
  induction ts generalizing q with
  | nil => simp
  | cons t rest ih =>
    obtain ⟨v, hv⟩ := Option.isSome_iff_exists.mp (h t (List.mem_cons_self t rest))
    have hz : specParseOrZero t.value = v := by
      simp [specParseOrZero, valueKey] at hv ⊢
      rw [hv]
      rfl
    rw [List.foldl_cons]
    have hstep : jsAdd (some q) (valueKey t) = some (q + v) := by
      rw [hv]
      rfl
    rw [hstep, ih (q + v) (fun x hx => h x (List.mem_cons_of_mem t hx))]
    simp only [List.map_cons, List.sum_cons, hz]
    ring_nf

theorem totalValue_eq_specSubtotal (ts : List TrackedWalletToken)
    (h : ∀ t ∈ ts, (valueKey t).isSome) :
    totalValue ts = some (specSubtotal ts) := by
  unfold totalValue specSubtotal
  rw [totalValue_foldl ts 0 h]
  simp

/-! ## Claim theorems -/

/-- C1: for every input sequence of token holdings and every sort
criterion, `sortedTokens` returns a sequence of the same length that is
a permutation of the input (same multiset, reordered only). -/
theorem c1_sortedTokens_perm (sortBy : String)
    (tokens : List TrackedWalletToken) :
    (sortedTokens sortBy tokens).Perm tokens ∧
      (sortedTokens sortBy tokens).length = tokens.length := by
  have h := stableSort_perm (tokenCompare sortBy) tokens
  exact ⟨h, h.length_eq⟩

/-- C2: sorting is stable for every criterion: the holdings whose sort
keys are equal to any given key form the same subsequence (same elements
in the same relative order) before and after sorting. -/
theorem c2_sortedTokens_stable (sortBy : String)
    (tokens : List TrackedWalletToken) (k : SortKey) :
    (sortedTokens sortBy tokens).filter (fun t => decide (sortKey sortBy t = k)) =
      tokens.filter (fun t => decide (sortKey sortBy t = k)) := by
  apply filter_stableSort
  intro a b ha hb
  have ha' := of_decide_eq_true ha
  have hb' := of_decide_eq_true hb
  exact cmpGT_tokenCompare_of_sortKey_eq sortBy a b (ha'.trans hb'.symm)

/-- C8: sorting is idempotent: re-sorting the sorted output with the
same criterion returns the same sequence. -/
theorem c8_sortedTokens_idem (sortBy : String)
    (tokens : List TrackedWalletToken) :
    sortedTokens sortBy (sortedTokens sortBy tokens) =
      sortedTokens sortBy tokens :=
  stableSort_idem _ (cmpGT_tokenCompare_asymm sortBy) tokens

/-- C10: for a sort criterion outside the five documented options the
comparator returns `0` on every pair, and `sortedTokens` returns the
input sequence unchanged (identity permutation). -/
theorem c10_default_comparator_identity (sortBy : String)
    (h : sortBy ≠ "value" ∧ sortBy ≠ "balance" ∧ sortBy ≠ "performance" ∧
      sortBy ≠ "alphabetical" ∧ sortBy ≠ "chain")
    (tokens : List TrackedWalletToken) :
    (∀ a b, tokenCompare sortBy a b = some 0) ∧
      sortedTokens sortBy tokens = tokens := by
  obtain ⟨h1, h2, h3, h4, h5⟩ := h
  constructor
  · intro a b
    simp [tokenCompare, h1, h2, h3, h4, h5]
  · apply stableSort_eq_self_of_never_gt
    intro a b
    simp [tokenCompare, h1, h2, h3, h4, h5, cmpGT]

/-- Witness for C10 at the concrete criterion `"foo"` and a two-element
input. -/
theorem c10_witness :
    sortedTokens "foo"
        [mkToken none (some "5"), mkToken none (some "9")] =
      [mkToken none (some "5"), mkToken none (some "9")] :=
  (c10_default_comparator_identity "foo"
    ⟨by decide, by decide, by decide, by decide, by decide⟩
    [mkToken none (some "5"), mkToken none (some "9")]).2

/-- C5 counterexample: a holding whose chain normalizes to the
`Object.prototype` property name `"toString"` makes
`getTokensByBlockchain` throw `TypeError` (the inherited `toString` is
truthy, so the group array is never created and `.push` is called on a
function): no partition of the input is produced at all. -/
theorem c5_counterexample :
    getChainDisplayName (some "toString") = "toString" ∧
    "toString" ∈ objectProtoKeys ∧
    getTokensByBlockchain "chain" [mkToken (some "toString") none] = none := by
  decide

/-- C5 amended: whenever `getTokensByBlockchain` returns a grouping (no
normalized chain name is an `Object.prototype` property name), that
grouping partitions the holdings exactly: the concatenation of the
groups is a permutation of the input, group keys are pairwise distinct,
every holding sits in the group keyed by its normalized chain display
name, and the displayed count of each group is the length of its
sub-sequence.  A chain name colliding with `Object.prototype` instead
makes the call throw `TypeError`, producing no partition. -/
theorem c5_partitions_of_successful_grouping (sortBy : String)
    (tokens : List TrackedWalletToken)
    (g : List (String × List TrackedWalletToken))
    (hg : getTokensByBlockchain sortBy tokens = some g) :
    ((g.map Prod.snd).flatten).Perm tokens ∧
    (g.map Prod.fst).Nodup ∧
    (∀ p ∈ g, ∀ x ∈ p.2, getChainDisplayName x.chain = p.1) ∧
    (∀ p ∈ g, renderedTokenCount p.2 = p.2.length) := by
  obtain ⟨-, hgeq⟩ :=
    (groupForEachJS_some_iff (sortedTokens sortBy tokens) g).mp hg
  subst hgeq
  refine ⟨?_, groupForEach_keys_nodup _, groupForEach_chain _, fun p _ => rfl⟩
  exact (groupForEach_join_perm _).trans (stableSort_perm _ tokens)

/-- Witness for the amended C5 at a concrete two-chain portfolio. -/
theorem c5_witness :
    (([("Ethereum", [mkToken (some "ETH") (some "2")]),
       ("Solana", [mkToken (some "SOL") (some "1")])].map Prod.snd).flatten).Perm
      [mkToken (some "ETH") (some "2"), mkToken (some "SOL") (some "1")] :=
  (c5_partitions_of_successful_grouping "value"
    [mkToken (some "ETH") (some "2"), mkToken (some "SOL") (some "1")]
    [("Ethereum", [mkToken (some "ETH") (some "2")]),
     ("Solana", [mkToken (some "SOL") (some "1")])] (by decide)).1

/-- C9: the chain normalizer and color table are total with the
documented fallbacks: absent or empty chain yields `"Unknown"`,
unrecognized chains are returned verbatim, and colors outside the alias
table fall back to the neutral gray `#666`. -/
theorem c9_normalizer_total :
    getChainDisplayName none = "Unknown" ∧
    getChainDisplayName (some "") = "Unknown" ∧
    (∀ s : String, s ≠ "" →
      toUpperStr s ∉
        (["EVM", "ETH", "MATIC", "ARB", "OP", "AVAX", "SOL", "FTM"] :
          List String) →
      getChainDisplayName (some s) = s) ∧
    getChainColor none = "#666" ∧
    (∀ s : String,
      toUpperStr s ∉
        (["ETHEREUM", "ETH", "POLYGON", "MATIC", "BSC", "BINANCE",
          "ARBITRUM", "ARB", "OPTIMISM", "OP", "AVALANCHE", "AVAX",
          "SOLANA", "SOL", "SUI", "BASE", "FANTOM", "FTM", "EVM"] :
          List String) →
      getChainColor (some s) = "#666") := by
  refine ⟨rfl, by decide, ?_, rfl, ?_⟩
  · intro s hs hnot
    simp only [List.mem_cons, List.not_mem_nil, or_false, not_or] at hnot
    obtain ⟨h1, h2, h3, h4, h5, h6, h7, h8⟩ := hnot
    simp [getChainDisplayName, h1, h2, h3, h4, h5, h6, h7, h8, hs]
  · intro s hnot
    simp only [List.mem_cons, List.not_mem_nil, or_false, not_or] at hnot
    obtain ⟨h1, h2, h3, h4, h5, h6, h7, h8, h9, h10, h11, h12, h13, h14,
      h15, h16, h17, h18, h19⟩ := hnot
    simp [getChainColor, h1, h2, h3, h4, h5, h6, h7, h8, h9, h10, h11,
      h12, h13, h14, h15, h16, h17, h18, h19]

/-- Witness for C9 at the concrete unrecognized chain `"DOGE"`. -/
theorem c9_witness :
    getChainDisplayName (some "DOGE") = "DOGE" ∧
      getChainColor (some "DOGE") = "#666" :=
  ⟨c9_normalizer_total.2.2.1 "DOGE" (by decide) (by decide),
   c9_normalizer_total.2.2.2.2 "DOGE" (by decide)⟩

/-- C3 counterexample: a holding whose `value` is the non-numeric string
`"abc"` gets the sort key `NaN` (`none`), not zero: the code leaves it
in front of a `"5"`-valued holding under value-descending sort, whereas
the zero-key treatment the claim describes would put it last. -/
theorem c3_counterexample :
    sortedTokens "value"
        [mkToken none (some "abc"), mkToken none (some "5")] =
      [mkToken none (some "abc"), mkToken none (some "5")] ∧
    specValueSorted [mkToken none (some "abc"), mkToken none (some "5")] =
      [mkToken none (some "5"), mkToken none (some "abc")] ∧
    valueKey (mkToken none (some "abc")) = none ∧
    sortedTokens "value"
        [mkToken none (some "abc"), mkToken none (some "5")] ≠
      specValueSorted [mkToken none (some "abc"), mkToken none (some "5")] := by
  refine ⟨by decide, by decide, by decide, ?_⟩
  intro hcon
  rw [show sortedTokens "value"
        [mkToken none (some "abc"), mkToken none (some "5")] =
      [mkToken none (some "abc"), mkToken none (some "5")] from by decide,
    show specValueSorted [mkToken none (some "abc"), mkToken none (some "5")] =
      [mkToken none (some "5"), mkToken none (some "abc")] from by decide] at hcon
  exact absurd hcon (by decide)

/-- C3 amended: an *absent* `quantity`, `value` or 24h-change field is
treated as the numeric key exactly zero, and sorting is total (always
returns a same-length sequence).  Grouping returns a grouping of the
same total length whenever it succeeds, and it fails — the real loop
throws `TypeError` — exactly when some holding's normalized chain name
is an `Object.prototype` property name.  A non-numeric *string* in a
numeric field parses to `NaN`, which the comparator treats as a
universal tie and which poisons subtotals, rather than acting as
zero. -/
theorem c3_amended_absent_is_zero_and_total :
    (∀ t : TrackedWalletToken, t.value = none → valueKey t = some 0) ∧
    (∀ t : TrackedWalletToken, t.quantity = none → balanceKey t = some 0) ∧
    (∀ t : TrackedWalletToken, t.price_change_24h = none → perfKey t = 0) ∧
    (∀ (sortBy : String) (tokens : List TrackedWalletToken),
      (sortedTokens sortBy tokens).length = tokens.length) ∧
    (∀ (tokens : List TrackedWalletToken)
      (g : List (String × List TrackedWalletToken)),
      groupForEachJS tokens = some g →
        ((g.map Prod.snd).flatten).length = tokens.length) ∧
    (∀ tokens : List TrackedWalletToken,
      groupForEachJS tokens = none ↔
        ∃ t ∈ tokens, getChainDisplayName t.chain ∈ objectProtoKeys) := by
  refine ⟨?_, ?_, ?_, ?_, ?_, groupForEachJS_none_iff⟩
  · intro t ht
    simp only [valueKey, jsOrString, ht]
    decide
  · intro t ht
    simp only [balanceKey, jsOrString, ht]
    decide
  · intro t ht
    simp [perfKey, ht]
  · intro sortBy tokens
    exact (stableSort_perm (tokenCompare sortBy) tokens).length_eq
  · intro tokens g hg
    obtain ⟨-, hgeq⟩ := (groupForEachJS_some_iff tokens g).mp hg
    subst hgeq
    exact (groupForEach_join_perm tokens).length_eq

/-- Witness for the amended C3 at a concrete all-absent holding, a
concrete sort call and a concrete successful grouping. -/
theorem c3_witness :
    valueKey (mkToken none none) = some 0 ∧
    balanceKey (mkToken none none) = some 0 ∧
    perfKey (mkToken none none) = 0 ∧
    (sortedTokens "value" [mkToken none (some "1")]).length = 1 ∧
    (([("Ethereum", [mkToken (some "ETH") none])].map Prod.snd).flatten).length
      = 1 :=
  ⟨c3_amended_absent_is_zero_and_total.1 (mkToken none none) rfl,
   c3_amended_absent_is_zero_and_total.2.1 (mkToken none none) rfl,
   c3_amended_absent_is_zero_and_total.2.2.1 (mkToken none none) rfl,
   c3_amended_absent_is_zero_and_total.2.2.2.1 "value"
     [mkToken none (some "1")],
   c3_amended_absent_is_zero_and_total.2.2.2.2.1 [mkToken (some "ETH") none]
     [("Ethereum", [mkToken (some "ETH") none])] (by decide)⟩

/-- C4 counterexample: the display-name switch has no cases for the
long-form aliases; `"ETHEREUM"` and `"SOLANA"` fall through to the
default and are returned verbatim, not as `"Ethereum"`/`"Solana"`. -/
theorem c4_counterexample :
    getChainDisplayName (some "ETHEREUM") = "ETHEREUM" ∧
    getChainDisplayName (some "ETHEREUM") ≠ "Ethereum" ∧
    getChainDisplayName (some "POLYGON") = "POLYGON" ∧
    getChainDisplayName (some "POLYGON") ≠ "Polygon" ∧
    getChainDisplayName (some "SOLANA") = "SOLANA" ∧
    getChainDisplayName (some "SOLANA") ≠ "Solana" := by
  decide

/-- C4 amended: every case variant of the *short* aliases ETH, MATIC,
ARB, OP, AVAX, SOL, FTM maps to its canonical display name and every
case variant of EVM maps to `"EVM"`; every case variant of the long
forms ETHEREUM, POLYGON, ARBITRUM, SOLANA, FANTOM matches no case of
the switch and is returned verbatim (the raw input unchanged). -/
theorem c4_amended_short_aliases_only :
    (∀ s : String, toUpperStr s = "ETH" →
      getChainDisplayName (some s) = "Ethereum") ∧
    (∀ s : String, toUpperStr s = "MATIC" →
      getChainDisplayName (some s) = "Polygon") ∧
    (∀ s : String, toUpperStr s = "ARB" →
      getChainDisplayName (some s) = "Arbitrum") ∧
    (∀ s : String, toUpperStr s = "OP" →
      getChainDisplayName (some s) = "Optimism") ∧
    (∀ s : String, toUpperStr s = "AVAX" →
      getChainDisplayName (some s) = "Avalanche") ∧
    (∀ s : String, toUpperStr s = "SOL" →
      getChainDisplayName (some s) = "Solana") ∧
    (∀ s : String, toUpperStr s = "FTM" →
      getChainDisplayName (some s) = "Fantom") ∧
    (∀ s : String, toUpperStr s = "EVM" →
      getChainDisplayName (some s) = "EVM") ∧
    (∀ s : String, toUpperStr s = "ETHEREUM" →
      getChainDisplayName (some s) = s) ∧
    (∀ s : String, toUpperStr s = "POLYGON" →
      getChainDisplayName (some s) = s) ∧
    (∀ s : String, toUpperStr s = "ARBITRUM" →
      getChainDisplayName (some s) = s) ∧
    (∀ s : String, toUpperStr s = "SOLANA" →
      getChainDisplayName (some s) = s) ∧
    (∀ s : String, toUpperStr s = "FANTOM" →
      getChainDisplayName (some s) = s) := by
  refine ⟨?_, ?_, ?_, ?_, ?_, ?_, ?_, ?_, ?_, ?_, ?_, ?_, ?_⟩
  all_goals
    intro s h
    by_cases hs : s = ""
    · subst hs
      exact absurd h (by decide)
    · simp [getChainDisplayName, h, hs]

/-- Witness for the amended C4 at concrete case variants of the short
aliases and of a long form. -/
theorem c4_witness :
    getChainDisplayName (some "eTh") = "Ethereum" ∧
    getChainDisplayName (some "aVaX") = "Avalanche" ∧
    getChainDisplayName (some "Ethereum") = "Ethereum" :=
  ⟨c4_amended_short_aliases_only.1 "eTh" (by decide),
   c4_amended_short_aliases_only.2.2.2.2.1 "aVaX" (by decide),
   c4_amended_short_aliases_only.2.2.2.2.2.2.2.2.1 "Ethereum" (by decide)⟩

/-- C6 counterexample: a group holding one token whose `value` is the
non-numeric string `"oops"` displays the subtotal `NaN` (the JS sum is
poisoned), not the zero the parse-or-zero sum prescribes. -/
theorem c6_counterexample :
    getTokensByBlockchain "chain" [mkToken (some "EVM") (some "oops")] =
      some [("EVM", [mkToken (some "EVM") (some "oops")])] ∧
    totalValue [mkToken (some "EVM") (some "oops")] = none ∧
    specSubtotal [mkToken (some "EVM") (some "oops")] = 0 ∧
    totalValue [mkToken (some "EVM") (some "oops")] ≠
      some (specSubtotal [mkToken (some "EVM") (some "oops")]) := by
  refine ⟨by decide, by decide, by decide, ?_⟩
  intro hcon
  rw [show totalValue [mkToken (some "EVM") (some "oops")] = none from by
    decide] at hcon
  exact Option.noConfusion hcon

/-- C6 amended: for every group whose holdings all have a parseable (or
absent, hence `"0"`-defaulted) `value`, the displayed subtotal equals
the sum of parse-or-zero of the values; a non-numeric string value makes
the displayed subtotal `NaN` instead. -/
theorem c6_subtotal_of_parseable (sortBy : String)
    (tokens : List TrackedWalletToken)
    (g : List (String × List TrackedWalletToken))
    (p : String × List TrackedWalletToken)
    (_hg : getTokensByBlockchain sortBy tokens = some g)
    (_hp : p ∈ g)
    (hvals : ∀ t ∈ p.2, (valueKey t).isSome) :
    totalValue p.2 = some (specSubtotal p.2) :=
  totalValue_eq_specSubtotal p.2 hvals

/-- Witness for the amended C6 at a concrete one-group portfolio. -/
theorem c6_witness :
    totalValue [mkToken (some "ETH") (some "100.50")] =
      some (specSubtotal [mkToken (some "ETH") (some "100.50")]) :=
  c6_subtotal_of_parseable "chain" [mkToken (some "ETH") (some "100.50")]
    [("Ethereum", [mkToken (some "ETH") (some "100.50")])]
    ("Ethereum", [mkToken (some "ETH") (some "100.50")])
    (by decide) (by decide) (by decide)

/-- C7 counterexample: with the chains `"10"` and `"9"` (both canonical
array-index strings), `Object.entries` presents the groups in ascending
numeric key order `["9", "10"]`, not in the insertion order
`["10", "9"]` of first occurrence in the sorted sequence. -/
theorem c7_counterexample :
    displayedGroups "chain" [mkToken (some "10") none, mkToken (some "9") none]
      = some [("9", [mkToken (some "9") none]),
              ("10", [mkToken (some "10") none])] ∧
    firstOccurrenceKeys (sortedTokens "chain"
        [mkToken (some "10") none, mkToken (some "9") none]) = ["10", "9"] ∧
    ([("9", [mkToken (some "9") none]),
      ("10", [mkToken (some "10") none])].map Prod.fst ≠
      firstOccurrenceKeys (sortedTokens "chain"
        [mkToken (some "10") none, mkToken (some "9") none])) := by
  decide

/-- C7 amended: whenever the grouping succeeds (no normalized chain name
is an `Object.prototype` property name — otherwise the real loop throws
`TypeError` and nothing is presented) and no group key is an
integer-like array-index string, the displayed groups never re-sort
their members (each group is the filtered subsequence of the sorted
input) and are presented exactly in insertion order of first
occurrence; an integer-like chain name is instead hoisted to the front
in ascending numeric order by JS property enumeration. -/
theorem c7_amended_insertion_order (sortBy : String)
    (tokens : List TrackedWalletToken)
    (g : List (String × List TrackedWalletToken))
    (hg : getTokensByBlockchain sortBy tokens = some g)
    (hidx : ∀ p ∈ g, isArrayIndexKey p.1 = false) :
    displayedGroups sortBy tokens = some g ∧
    (∀ p ∈ g, p.2 = (sortedTokens sortBy tokens).filter
      (fun x => decide (getChainDisplayName x.chain = p.1))) ∧
    g.map Prod.fst = firstOccurrenceKeys (sortedTokens sortBy tokens) := by
  obtain ⟨-, hgeq⟩ :=
    (groupForEachJS_some_iff (sortedTokens sortBy tokens) g).mp hg
  subst hgeq
  refine ⟨?_, groupForEach_filter _, groupForEach_map_fst _⟩
  unfold displayedGroups
  rw [hg, Option.map_some', objectEntries_eq_self _ hidx]

/-- Witness for the amended C7 at a concrete two-chain portfolio with
non-numeric chain names. -/
theorem c7_witness :
    [("Ethereum", [mkToken (some "ETH") none]),
     ("Solana", [mkToken (some "SOL") none])].map Prod.fst =
      firstOccurrenceKeys (sortedTokens "chain"
        [mkToken (some "ETH") none, mkToken (some "SOL") none]) :=
  (c7_amended_insertion_order "chain"
    [mkToken (some "ETH") none, mkToken (some "SOL") none]
    [("Ethereum", [mkToken (some "ETH") none]),
     ("Solana", [mkToken (some "SOL") none])]
    (by decide) (by decide)).2.2

end Trackerfi
